import Mathlib

/-!
# Verification of the hook-event dispatcher and branch-summarization subsystem

This file is a shallow embedding, in Lean 4, of the core of the `pi-mono`
repository: the branch-summarization subsystem (`collectEntriesForBranchSummary`,
`prepareBranchEntries`, `formatFileOperations`, `generateBranchSummary`) and the
hook-event dispatcher (`HookRunner.emit`, `HookRunner.emitContext`, and the
`createTimeout` race).  Each TypeScript function is translated into an
executable Lean definition; external collaborators (the token estimator, the
completion call, the read-only session accessor, loaded hook handlers) are
passed as parameters, as the specification declares them external.

JavaScript numbers are modelled as `Nat`/`Int` (token counts are non-negative
integers; the token budget may be negative, hence `Int`).  The floating-point
literal `0.9` in `tokenBudget * 0.9` is modelled exactly as the rational
`9/10`, i.e. the comparison `t < b * 0.9` becomes `10 * t < 9 * b`.
JavaScript `Set` values are modelled as insertion-ordered duplicate-free
lists; `Array.prototype.sort()` on such lists is modelled by sorting with the
order on Lean `String`.
-/

namespace PiMono

/-! ## Data model: messages and session entries -/

/-- A single toolCall argument record is reduced to the only field the code
reads: `arguments.path` when it is a string (`none` models a missing
`arguments` object, a missing `path` field, or a non-string `path`). -/
inductive ContentBlock : Type where
  /-- A `{type: "text"}` content block. -/
  | text (text : String)
  /-- An image content block (never inspected by this subsystem). -/
  | image
  /-- A `{type: "toolCall"}` block with tool `name` and the `path` argument. -/
  | toolCall (name : String) (pathArg : Option String)
  deriving DecidableEq

/-- Message content in the `string | (TextContent | ImageContent)[]` style: message content. -/
inductive MessageContent : Type where
  | str (s : String)
  | blocks (bs : List ContentBlock)
  deriving DecidableEq

/-- The `AgentMessage` role union used by this subsystem: the standard LLM
roles plus the summary and hook roles produced by the entry extractor. -/
inductive AgentMessage : Type where
  | user (content : MessageContent) (timestamp : Nat)
  | assistant (content : List ContentBlock)
  | toolResult (timestamp : Nat)
  | branchSummary (summary : String) (fromId : String) (timestamp : Nat)
  | compactionSummary (summary : String) (tokensBefore : Nat) (timestamp : Nat)
  | hookMessage (customType : String) (content : MessageContent) (display : Bool)
      (details : Option String) (timestamp : Nat)
  deriving DecidableEq

/-- Kind-specific payload of a session entry (discriminated by `type`). -/
inductive EntryKind : Type where
  | message (message : AgentMessage)
  | custom_message (customType : String) (content : MessageContent) (display : Bool)
      (details : Option String)
  | branch_summary (summary : String) (fromId : String)
  | compaction (summary : String) (tokensBefore : Nat)
  | thinking_level_change
  | model_change
  | custom
  | label
  deriving DecidableEq

/-- One persisted node of the session tree (owned by the external storage
layer; the core only reads it). -/
structure SessionEntry : Type where
  id : String
  parentId : Option String
  timestamp : Nat
  kind : EntryKind
  deriving DecidableEq

/-- Modelled from the spec: `createHookMessage` lives in `messages.ts`, which
is not among the provided sources.  Per spec §4.1 it constructs a
`hookMessage`-role message carrying the custom type tag, content, a display
flag, optional details, and timestamp. -/
def createHookMessage (customType : String) (content : MessageContent) (display : Bool)
    (details : Option String) (timestamp : Nat) : AgentMessage :=
  .hookMessage customType content display details timestamp

/-- Modelled from the spec: `createBranchSummaryMessage` lives in
`messages.ts`, which is not among the provided sources.  Per spec §4.1 it
constructs a `branchSummary`-role message with the synopsis text, the id of
the branch it summarizes, and timestamp. -/
def createBranchSummaryMessage (summary : String) (fromId : String)
    (timestamp : Nat) : AgentMessage :=
  .branchSummary summary fromId timestamp

/-- Modelled from the spec: `createCompactionSummaryMessage` lives in
`messages.ts`, which is not among the provided sources.  Per spec §4.1 it
constructs a `compactionSummary`-role message with the synopsis, the
pre-compaction token count, and timestamp. -/
def createCompactionSummaryMessage (summary : String) (tokensBefore : Nat)
    (timestamp : Nat) : AgentMessage :=
  .compactionSummary summary tokensBefore timestamp

/-- Source `getMessageFromEntry` (branch-summary module): extract the zero-or-one
conversational message of a session entry. -/
def getMessageFromEntry (entry : SessionEntry) : Option AgentMessage :=
  match entry.kind with
  | .message m =>
    -- Skip tool results - context is in assistant's tool call
    match m with
    | .toolResult _ => none
    | _ => some m
  | .custom_message customType content display details =>
    some (createHookMessage customType content display details entry.timestamp)
  | .branch_summary summary fromId =>
    some (createBranchSummaryMessage summary fromId entry.timestamp)
  | .compaction summary tokensBefore =>
    some (createCompactionSummaryMessage summary tokensBefore entry.timestamp)
  -- These don't contribute to conversation content
  | .thinking_level_change => none
  | .model_change => none
  | .custom => none
  | .label => none

/-! ## File operations -/

/-- Models `Set.add`: append the element unless already present (JS `Set` keeps
insertion order and ignores duplicate insertions). -/
def setAdd (s : List String) (x : String) : List String :=
  if x ∈ s then s else s ++ [x]

/-- Models `new Set(l)`: insertion-ordered deduplication of a list. -/
def setOfList (l : List String) : List String :=
  l.foldl setAdd []

/-- The three path sets accumulated from assistant tool-call blocks. -/
structure FileOperations : Type where
  read : List String
  written : List String
  edited : List String
  deriving DecidableEq

/-- The empty `FileOperations` record (`{read: new Set(), ...}`). -/
def FileOperations.empty : FileOperations := ⟨[], [], []⟩

/-- Source `extractFileOpsFromMessage`: scan the toolCall blocks of an assistant
message and record `read`/`write`/`edit` paths.  Non-assistant messages are
ignored; blocks without a tool name match or without a string `path`
argument are skipped. -/
def extractFileOpsFromMessage (message : AgentMessage) (fileOps : FileOperations) :
    FileOperations :=
  match message with
  | .assistant content =>
    content.foldl
      (fun ops block =>
        match block with
        | .toolCall name (some path) =>
          if name = "read" then { ops with read := setAdd ops.read path }
          else if name = "write" then { ops with written := setAdd ops.written path }
          else if name = "edit" then { ops with edited := setAdd ops.edited path }
          else ops
        | _ => ops)
      fileOps
  | _ => fileOps

/-! ## Branch preparation (token budget) -/

/-- Result of `prepareBranchEntries`. -/
structure BranchPreparation : Type where
  /-- Messages extracted for summarization, in chronological order -/
  messages : List AgentMessage
  /-- File operations extracted from tool calls -/
  fileOps : FileOperations
  /-- Total estimated tokens in messages -/
  totalTokens : Nat
  deriving DecidableEq

/-- The test `entry.type === "compaction" || entry.type === "branch_summary"`. -/
def isSummaryKind (entry : SessionEntry) : Bool :=
  match entry.kind with
  | .compaction _ _ => true
  | .branch_summary _ _ => true
  | _ => false

/-- The body of the `for (let i = entries.length - 1; i >= 0; i--)` loop of
`prepareBranchEntries`, expressed on the reversed entry list (newest first).
`messages`, `fileOps` and `totalTokens` are the loop's mutable state; a
`break` returns the state accumulated so far.  The estimator is the external
`estimateTokens` function. -/
def prepareGo (estimate : AgentMessage → Nat) (tokenBudget : Int) :
    List SessionEntry → List AgentMessage → FileOperations → Nat → BranchPreparation
  | [], messages, fileOps, totalTokens => ⟨messages, fileOps, totalTokens⟩
  | entry :: rest, messages, fileOps, totalTokens =>
    match getMessageFromEntry entry with
    | none => prepareGo estimate tokenBudget rest messages fileOps totalTokens
    | some message =>
      -- Extract file ops from assistant messages
      let fileOps' := extractFileOpsFromMessage message fileOps
      let tokens := estimate message
      -- Check budget before adding
      if tokenBudget > 0 ∧ ((totalTokens + tokens : Nat) : Int) > tokenBudget then
        -- If this is a summary entry, try to fit it anyway as it's important context
        if isSummaryKind entry = true ∧ (10 * totalTokens : Int) < 9 * tokenBudget then
          ⟨message :: messages, fileOps', totalTokens + tokens⟩
        else
          -- Stop - we've hit the budget
          ⟨messages, fileOps', totalTokens⟩
      else
        prepareGo estimate tokenBudget rest (message :: messages) fileOps' (totalTokens + tokens)

/-- Source `prepareBranchEntries`: walk entries from newest to oldest, adding
messages until the token budget is hit (`tokenBudget ≤ 0` means no limit). -/
def prepareBranchEntries (estimate : AgentMessage → Nat) (entries : List SessionEntry)
    (tokenBudget : Int := 0) : BranchPreparation :=
  prepareGo estimate tokenBudget entries.reverse [] FileOperations.empty 0

/-! ## File-operation report (`formatFileOperations`) -/

/-- Models `Array.prototype.sort()` on a list of paths (default lexicographic string
comparison, modelled by the order on Lean `String`). -/
def sortStrings (l : List String) : List String :=
  List.insertionSort (· ≤ ·) l

/-- Models `new Set([...fileOps.edited, ...fileOps.written])`: edited and written
paths combined into "modified". -/
def modifiedFiles (fileOps : FileOperations) : List String :=
  setOfList (fileOps.edited ++ fileOps.written)

/-- Models `[...fileOps.read].filter((f) => !modified.has(f)).sort()`: read-only =
read but not modified. -/
def readOnlyFiles (fileOps : FileOperations) : List String :=
  sortStrings (fileOps.read.filter (fun f => !decide (f ∈ modifiedFiles fileOps)))

/-- Source `formatFileOperations`: the static section appended to a summary. -/
def formatFileOperations (fileOps : FileOperations) : String :=
  let modified := modifiedFiles fileOps
  let readOnly := readOnlyFiles fileOps
  let sections : List String :=
    (if readOnly.length > 0 then
      ["<read-files>\n" ++ String.intercalate "\n" readOnly ++ "\n</read-files>"]
     else []) ++
    (if modified.length > 0 then
      ["<modified-files>\n" ++ String.intercalate "\n" (sortStrings modified)
        ++ "\n</modified-files>"]
     else [])
  if sections.length = 0 then "" else "\n\n" ++ String.intercalate "\n\n" sections

/-! ## Summary generation (`generateBranchSummary`) -/

/-- The model handle: only `contextWindow` is read by this subsystem
(`model.contextWindow || 128000`; `none` models `undefined`). -/
structure ModelInfo : Type where
  contextWindow : Option Nat
  deriving DecidableEq

/-- Options record `GenerateBranchSummaryOptions`.  The API key and abort signal are passed
through opaquely to the external completion call and play no role in the
modelled control flow; `reserveTokens = none` models the omitted field,
defaulted to 16384 by destructuring. -/
structure GenerateBranchSummaryOptions : Type where
  model : ModelInfo
  customInstructions : Option String := none
  reserveTokens : Option Nat := none
  deriving DecidableEq

/-- Result record `BranchSummaryResult` (all three fields optional). -/
structure BranchSummaryResult : Type where
  summary : Option String := none
  aborted : Option Bool := none
  error : Option String := none
  deriving DecidableEq

/-- Response of the external `complete` function: a stop reason, content
blocks, and an optional error message. -/
structure CompleteResponse : Type where
  stopReason : String
  content : List ContentBlock
  errorMessage : Option String := none
  deriving DecidableEq

/-- JavaScript `s || d` on an optional string: the default is used when the
value is absent or the empty string (both falsy). -/
def orDefault (s : Option String) (d : String) : String :=
  match s with
  | none => d
  | some m => if m = "" then d else m

/-- The fixed default summarization instruction. -/
def BRANCH_SUMMARY_PROMPT : String :=
  "Summarize this conversation branch concisely for context when returning later:\n- Key decisions made and actions taken\n- Important context, constraints, or preferences discovered\n- Current state and any pending work\n- Critical information needed to continue from a different point\n\nBe brief and focused on what matters for future reference."

/-- Models `.filter(c is text).map(c.text).join("")` on content blocks. -/
def textOfBlocks (bs : List ContentBlock) : String :=
  String.join (bs.filterMap (fun c =>
    match c with
    | .text t => some t
    | _ => none))

/-- The `msg.role` discriminant string. -/
def roleOf (msg : AgentMessage) : String :=
  match msg with
  | .user _ _ => "user"
  | .assistant _ => "assistant"
  | .toolResult _ => "toolResult"
  | .branchSummary _ _ _ => "branchSummary"
  | .compactionSummary _ _ _ => "compactionSummary"
  | .hookMessage _ _ _ _ _ => "hookMessage"

/-- The flattened text of one message, per the `messagesToText` cascade. -/
def messageText (msg : AgentMessage) : String :=
  match msg with
  | .user (.str s) _ => s
  | .user (.blocks bs) _ => textOfBlocks bs
  | .assistant bs => textOfBlocks bs
  | .branchSummary s _ _ => "[Branch summary: " ++ s ++ "]"
  | .compactionSummary s _ _ => "[Session summary: " ++ s ++ "]"
  | .hookMessage _ (.str s) _ _ _ => s
  | .hookMessage _ (.blocks bs) _ _ _ => textOfBlocks bs
  | .toolResult _ => ""

/-- Source `messagesToText`: role-prefixed transcript, skipping messages whose
flattened text is empty (`if (text)`), joined with blank lines. -/
def messagesToText (messages : List AgentMessage) : String :=
  String.intercalate "\n\n"
    (messages.filterMap (fun msg =>
      let text := messageText msg
      if text = "" then none else some (roleOf msg ++ ": " ++ text)))

/-- The budget `contextWindow - reserveTokens`, with `model.contextWindow || 128000`
(`0` and `undefined` are both falsy) and `reserveTokens = 16384` by default.
The difference may be negative, hence `Int`. -/
def computedTokenBudget (options : GenerateBranchSummaryOptions) : Int :=
  let reserveTokens := options.reserveTokens.getD 16384
  let contextWindow : Nat :=
    match options.model.contextWindow with
    | none => 128000
    | some n => if n = 0 then 128000 else n
  (contextWindow : Int) - (reserveTokens : Int)

/-- Instrumented result of `generateBranchSummary`: the returned
`BranchSummaryResult` together with the list of prompts passed to the
external completion function (so "the completion function is never invoked"
is observable as `completionCalls = []`). -/
structure GenerateRun : Type where
  result : BranchSummaryResult
  completionCalls : List String
  deriving DecidableEq

/-- Source `generateBranchSummary`: prepare entries under the computed budget, short
circuit when nothing survives, otherwise call the external completion
function once and post-process its response. -/
def generateBranchSummary (complete : String → CompleteResponse)
    (estimate : AgentMessage → Nat) (entries : List SessionEntry)
    (options : GenerateBranchSummaryOptions) : GenerateRun :=
  let tokenBudget := computedTokenBudget options
  let prep := prepareBranchEntries estimate entries tokenBudget
  if prep.messages.length = 0 then
    ⟨{ summary := some "No content to summarize" }, []⟩
  else
    let conversationText := messagesToText prep.messages
    let instructions := orDefault options.customInstructions BRANCH_SUMMARY_PROMPT
    let prompt := instructions ++ "\n\nConversation:\n" ++ conversationText
    let response := complete prompt
    if response.stopReason = "aborted" then
      ⟨{ aborted := some true }, [prompt]⟩
    else if response.stopReason = "error" then
      ⟨{ error := some (orDefault response.errorMessage "Summarization failed") }, [prompt]⟩
    else
      let summary :=
        String.intercalate "\n"
          (response.content.filterMap (fun c =>
            match c with
            | .text t => some t
            | _ => none))
      let summary' := summary ++ formatFileOperations prep.fileOps
      ⟨{ summary := some (if summary' = "" then "No summary generated" else summary') }, [prompt]⟩

/-! ## Hook runner: timeout race -/

/-- The observable behaviour of one asynchronous handler invocation relative
to its racing timer: it settles successfully first, settles by rejecting
first, or fails to settle before the timer fires. -/
inductive HandlerBehavior (α : Type) : Type where
  | resolves (v : α)
  | rejects (msg : String)
  | neverSettles
  deriving DecidableEq

/-- Outcome of one `await`ed invocation as seen by the dispatch loop:
either a value or a caught error message. -/
inductive InvocationResult (α : Type) : Type where
  | ok (v : α)
  | err (msg : String)
  deriving DecidableEq

/-- State of the `createTimeout` timer right after the invocation's
`try`/`catch` completes: cancelled by `clear()`, already fired, or still
scheduled (neither cleared nor fired yet). -/
inductive TimerState : Type where
  | cleared
  | fired
  | stillScheduled
  deriving DecidableEq

/-- The rejection message built by `createTimeout`. -/
def timeoutMessage (ms : Nat) : String :=
  "Hook timed out after " ++ toString ms ++ "ms"

/-- Models `createTimeout` + `Promise.race([handler(...), timeout.promise])` +
`timeout.clear()`: `clear()` is on the line after the `await`, so it runs
only when the race resolves (handler resolves first).  When the handler
rejects first or the timer fires first, the `await` throws into the `catch`
and `clear()` is skipped; in the rejection case the timer is still
scheduled. -/
def raceWithTimeout {α : Type} (ms : Nat) (b : HandlerBehavior α) :
    InvocationResult α × TimerState :=
  match b with
  | .resolves v => (.ok v, .cleared)
  | .rejects m => (.err m, .stillScheduled)
  | .neverSettles => (.err (timeoutMessage ms), .fired)

/-! ## Hook runner: `emit` -/

/-- A session/tool-result event result: the only field `emit` inspects is
the `cancel` flag (tool-result results carry no meaningful `cancel`; the
dispatch loop never reads it for them). -/
structure EventResult : Type where
  cancel : Bool := false
  deriving DecidableEq

/-- A `HookEvent` as seen by `emit`: its `type` discriminant string and, for
session events, the optional `reason`. -/
structure HookEvent : Type where
  type : String
  reason : Option String := none
  deriving DecidableEq

/-- The error record passed to error listeners. -/
structure HookError : Type where
  hookPath : String
  event : String
  error : String
  deriving DecidableEq

/-- The test `event.type === "session" && event.reason === "before_compact"`. -/
def isBeforeCompact (event : HookEvent) : Bool :=
  event.type == "session" && event.reason == some "before_compact"

/-- One handler invocation inside `emit`'s `try` block: before-compact
session events are awaited without a timer (`none` = the await never
settles, so `emit` never returns); all other events race the timer. -/
def invokeOutcome {α : Type} (ms : Nat) (event : HookEvent) (b : HandlerBehavior α) :
    Option (InvocationResult α) :=
  if isBeforeCompact event then
    match b with
    | .resolves v => some (.ok v)
    | .rejects m => some (.err m)
    | .neverSettles => none
  else
    some (raceWithTimeout ms b).1

/-- A loaded hook: its path and its handler map (event-type keyed), with
each handler represented by its behaviour for the emission being modelled.
`resolves none` models a handler that returns `undefined` (falsy). -/
structure LoadedHook : Type where
  path : String
  handlers : List (String × List (HandlerBehavior (Option EventResult)))
  deriving DecidableEq

/-- The dispatch order of `emit`: hooks in load order, and within each hook
the handlers registered for the event type in registration order
(`hook.handlers.get(event.type)`; missing or empty lists are skipped by
`continue`). -/
def dispatchList (hooks : List LoadedHook) (eventType : String) :
    List (String × HandlerBehavior (Option EventResult)) :=
  hooks.flatMap (fun h =>
    match h.handlers.lookup eventType with
    | none => []
    | some hs => hs.map (fun b => (h.path, b)))

/-- Source `emitError`: deliver one error to every registered listener, in
registration order (listeners identified by name); returns the delivery
log. -/
def emitErrorLog (listeners : List String) (e : HookError) :
    List (String × HookError) :=
  listeners.map (fun name => (name, e))

/-- Instrumented run of `emit`: the invocations started (in order), the
errors reported to `emitError` (in order), the returned result, and whether
the call hung on a timerless handler that never settles (in which case
`emit` never returns and the other fields describe the state reached so
far). -/
structure EmitRun : Type where
  invoked : List (String × HandlerBehavior (Option EventResult))
  errors : List HookError
  result : Option EventResult
  hung : Bool
  deriving DecidableEq

/-- The nested `for` loops of `emit` over the flattened dispatch list.
A caught error appends to `errors` and continues; a truthy session result
is captured (the last one wins) and a set `cancel` flag returns
immediately; a truthy tool_result result is captured (last one wins);
results of other event kinds are ignored. -/
def emitGo (ms : Nat) (event : HookEvent) :
    List (String × HandlerBehavior (Option EventResult)) → EmitRun
  | [] => ⟨[], [], none, false⟩
  | x :: rest =>
    match invokeOutcome ms event x.2 with
    | none => ⟨[x], [], none, true⟩
    | some (.err m) =>
      let r := emitGo ms event rest
      ⟨x :: r.invoked, ⟨x.1, event.type, m⟩ :: r.errors, r.result, r.hung⟩
    | some (.ok v) =>
      if event.type = "session" then
        match v with
        | some res =>
          if res.cancel then ⟨[x], [], some res, false⟩
          else
            let r := emitGo ms event rest
            ⟨x :: r.invoked, r.errors, Option.or r.result (some res), r.hung⟩
        | none =>
          let r := emitGo ms event rest
          ⟨x :: r.invoked, r.errors, r.result, r.hung⟩
      else if event.type = "tool_result" then
        match v with
        | some res =>
          let r := emitGo ms event rest
          ⟨x :: r.invoked, r.errors, Option.or r.result (some res), r.hung⟩
        | none =>
          let r := emitGo ms event rest
          ⟨x :: r.invoked, r.errors, r.result, r.hung⟩
      else
        let r := emitGo ms event rest
        ⟨x :: r.invoked, r.errors, r.result, r.hung⟩

/-- Source `HookRunner.emit`. -/
def emit (hooks : List LoadedHook) (ms : Nat) (event : HookEvent) : EmitRun :=
  emitGo ms event (dispatchList hooks event.type)

/-- The `HookError` produced by an invocation, when it fails. -/
def invocationError (ms : Nat) (event : HookEvent)
    (x : String × HandlerBehavior (Option EventResult)) : Option HookError :=
  match invokeOutcome ms event x.2 with
  | some (.err m) => some ⟨x.1, event.type, m⟩
  | _ => none

/-! ## Hook runner: `emitContext` -/

/-- A loaded hook projected onto its `"context"` handlers
(`hook.handlers.get("context")`, empty when absent).  Each handler is a
function of the message list it receives; `resolves none` models a result
without (truthy) `messages`, `resolves (some l)` a replacement list. -/
structure ContextHook (M : Type) : Type where
  path : String
  contextHandlers : List (List M → HandlerBehavior (Option (List M)))

/-- Dispatch order of `emitContext`. -/
def ctxDispatch {M : Type} (hooks : List (ContextHook M)) :
    List (String × (List M → HandlerBehavior (Option (List M)))) :=
  hooks.flatMap (fun h => h.contextHandlers.map (fun f => (h.path, f)))

/-- Log record of one context-handler invocation: which hook, the message
list the handler received, and its behaviour on that input. -/
structure CtxInvocation (M : Type) : Type where
  path : String
  input : List M
  behavior : HandlerBehavior (Option (List M))
  deriving DecidableEq

/-- Instrumented run of `emitContext`. -/
structure CtxRun (M : Type) : Type where
  invoked : List (CtxInvocation M)
  errors : List HookError
  result : Option (List M)
  deriving DecidableEq

/-- The replacement message list an invocation produces, if any
(`handlerResult && handlerResult.messages`). -/
def replacementOf {M : Type} (ms : Nat) (b : HandlerBehavior (Option (List M))) :
    Option (List M) :=
  match (raceWithTimeout ms b).1 with
  | .ok (some msgs) => some msgs
  | _ => none

/-- The loop of `emitContext`: every invocation races the timer; a caught
error is reported and the current messages are kept; a truthy `messages`
result becomes the new current list and sets `modified`. -/
def emitContextGo {M : Type} (ms : Nat) :
    List (String × (List M → HandlerBehavior (Option (List M)))) → List M → Bool → CtxRun M
  | [], current, modified => ⟨[], [], if modified then some current else none⟩
  | (path, handler) :: rest, current, modified =>
    let b := handler current
    match (raceWithTimeout ms b).1 with
    | .err m =>
      let r := emitContextGo ms rest current modified
      ⟨⟨path, current, b⟩ :: r.invoked, ⟨path, "context", m⟩ :: r.errors, r.result⟩
    | .ok none =>
      let r := emitContextGo ms rest current modified
      ⟨⟨path, current, b⟩ :: r.invoked, r.errors, r.result⟩
    | .ok (some msgs) =>
      let r := emitContextGo ms rest msgs true
      ⟨⟨path, current, b⟩ :: r.invoked, r.errors, r.result⟩

/-- Source `HookRunner.emitContext`. -/
def emitContext {M : Type} (hooks : List (ContextHook M)) (ms : Nat)
    (messages : List M) : CtxRun M :=
  emitContextGo ms (ctxDispatch hooks) messages false

/-! ## Entry collection (`collectEntriesForBranchSummary`) -/

/-- Modelled from the spec: the `ReadonlySessionManager` interface lives in
`session-manager.ts`, which is not among the provided sources.  Per spec §6
it exposes `getEntry(id) -> SessionEntry|absent` and `getPath(id) ->
ordered sequence of SessionEntry from the given id to the root`. -/
structure ReadonlySessionManager : Type where
  getEntry : String → Option SessionEntry
  getPath : String → List SessionEntry

/-- Result of `collectEntriesForBranchSummary`. -/
structure CollectEntriesResult : Type where
  /-- Entries to summarize, in chronological order -/
  entries : List SessionEntry
  /-- Common ancestor between old and new position, if any -/
  commonAncestorId : Option String
  deriving DecidableEq

/-- The `while (current && current !== commonAncestorId)` loop of
`collectEntriesForBranchSummary`, with an explicit fuel bound: the JS loop
terminates on acyclic parent graphs (every theorem below supplies enough
fuel to cover the whole ancestor path), and fuel exhaustion models the cut
of the loop's unbounded unfolding.  Entries are returned in visit order
(leaf towards root, pre-reversal). -/
def collectLoop (session : ReadonlySessionManager) (commonAncestorId : Option String) :
    Nat → Option String → List SessionEntry
  | 0, _ => []
  | _ + 1, none => []
  | fuel + 1, some c =>
    if commonAncestorId = some c then []
    else
      match session.getEntry c with
      | none => []
      | some entry => entry :: collectLoop session commonAncestorId fuel entry.parentId

/-- Source `collectEntriesForBranchSummary`: find the common ancestor (first entry
of the target's root path whose id lies on the old position's root path),
then walk from the old leaf back to it, and reverse into chronological
order. -/
def collectEntriesForBranchSummary (session : ReadonlySessionManager)
    (oldLeafId : Option String) (targetId : String) (fuel : Nat) : CollectEntriesResult :=
  match oldLeafId with
  | none => ⟨[], none⟩
  | some oldLeaf =>
    let oldPath := (session.getPath oldLeaf).map (fun e => e.id)
    let targetPath := session.getPath targetId
    let commonAncestorId :=
      (targetPath.find? (fun e => decide (e.id ∈ oldPath))).map (fun e => e.id)
    let entries := collectLoop session commonAncestorId fuel (some oldLeaf)
    ⟨entries.reverse, commonAncestorId⟩

/-- The predicate `isChain p`: `p` is a parent chain — consecutive entries are linked by
`parentId` and the last entry is a root (`parentId = null`).  This is the
shape `getPath` returns on a well-formed session tree. -/
def isChain : List SessionEntry → Bool
  | [] => true
  | [e] => e.parentId == none
  | e :: f :: rest => e.parentId == some f.id && isChain (f :: rest)

/-- A small concrete session tree for witnesses: root `"r"` with children
`"a"` (which has child `"b"`) and `"t"`. -/
def demoSession : ReadonlySessionManager where
  getEntry := fun id =>
    if id = "r" then some ⟨"r", none, 0, .custom⟩
    else if id = "a" then some ⟨"a", some "r", 0, .custom⟩
    else if id = "b" then some ⟨"b", some "a", 0, .custom⟩
    else if id = "t" then some ⟨"t", some "r", 0, .custom⟩
    else none
  getPath := fun id =>
    if id = "b" then
      [⟨"b", some "a", 0, .custom⟩, ⟨"a", some "r", 0, .custom⟩, ⟨"r", none, 0, .custom⟩]
    else if id = "t" then [⟨"t", some "r", 0, .custom⟩, ⟨"r", none, 0, .custom⟩]
    else if id = "a" then [⟨"a", some "r", 0, .custom⟩, ⟨"r", none, 0, .custom⟩]
    else if id = "r" then [⟨"r", none, 0, .custom⟩]
    else []

/-! ## Theorems -/

/-- Loop invariant behind C1: starting from an under-budget accumulator, the
loop either stays within budget or admits exactly one summary-kind message
past it, and only from below 90% of the budget. -/
theorem prepareGo_budget (estimate : AgentMessage → Nat) (tokenBudget : Int)
    (rev : List SessionEntry) (messages : List AgentMessage) (fileOps : FileOperations)
    (totalTokens : Nat) (hB : 0 < tokenBudget)
    (hacc : (totalTokens : Int) ≤ tokenBudget) :
    ((prepareGo estimate tokenBudget rev messages fileOps totalTokens).totalTokens : Int)
        ≤ tokenBudget ∨
      ∃ (entry : SessionEntry) (message : AgentMessage) (pre : Nat),
        entry ∈ rev ∧ isSummaryKind entry = true ∧
        getMessageFromEntry entry = some message ∧
        (10 * pre : Int) < 9 * tokenBudget ∧
        ((pre + estimate message : Nat) : Int) > tokenBudget ∧
        (prepareGo estimate tokenBudget rev messages fileOps totalTokens).totalTokens
          = pre + estimate message := by
  induction rev generalizing messages fileOps totalTokens with
  | nil => exact Or.inl hacc
  | cons entry rest ih =>
    simp only [prepareGo]
    cases hmsg : getMessageFromEntry entry with
    | none =>
      rcases ih messages fileOps totalTokens hacc with h | ⟨e, m, p, he, h2, h3, h4, h5, h6⟩
      · exact Or.inl h
      · exact Or.inr ⟨e, m, p, List.mem_cons_of_mem _ he, h2, h3, h4, h5, h6⟩
    | some message =>
      dsimp only
      by_cases hover : tokenBudget > 0 ∧ ((totalTokens + estimate message : Nat) : Int) > tokenBudget
      · rw [if_pos hover]
        by_cases hsum : isSummaryKind entry = true ∧ (10 * totalTokens : Int) < 9 * tokenBudget
        · rw [if_pos hsum]
          exact Or.inr ⟨entry, message, totalTokens, List.mem_cons_self _ _, hsum.1, hmsg,
            hsum.2, hover.2, rfl⟩
        · rw [if_neg hsum]
          exact Or.inl hacc
      · rw [if_neg hover]
        have hle : ((totalTokens + estimate message : Nat) : Int) ≤ tokenBudget := by
          rcases not_and_or.mp hover with h | h
          · exact absurd hB h
          · exact le_of_not_lt h
        rcases ih (message :: messages) (extractFileOpsFromMessage message fileOps)
            (totalTokens + estimate message) hle with h | ⟨e, m, p, he, h2, h3, h4, h5, h6⟩
        · exact Or.inl h
        · exact Or.inr ⟨e, m, p, List.mem_cons_of_mem _ he, h2, h3, h4, h5, h6⟩

/-- C1: for every chronological entry list and every positive token budget,
the `totalTokens` of the returned `BranchPreparation` never exceeds the
budget, except that at most one `compaction`/`branch_summary` message may be
admitted past it, and only when the total accumulated before admitting it is
below 90% of the budget; the loop stops right after such an admission, so
the allowance fires at most once. -/
theorem prepareBranchEntries_respects_budget (estimate : AgentMessage → Nat)
    (entries : List SessionEntry) (tokenBudget : Int) (hB : 0 < tokenBudget) :
    ((prepareBranchEntries estimate entries tokenBudget).totalTokens : Int) ≤ tokenBudget ∨
      ∃ (entry : SessionEntry) (message : AgentMessage) (pre : Nat),
        entry ∈ entries ∧ isSummaryKind entry = true ∧
        getMessageFromEntry entry = some message ∧
        (10 * pre : Int) < 9 * tokenBudget ∧
        ((pre + estimate message : Nat) : Int) > tokenBudget ∧
        (prepareBranchEntries estimate entries tokenBudget).totalTokens
          = pre + estimate message := by
  rcases prepareGo_budget estimate tokenBudget entries.reverse [] FileOperations.empty 0 hB
      (by exact_mod_cast Int.le_of_lt hB) with h | ⟨e, m, p, he, h2, h3, h4, h5, h6⟩
  · exact Or.inl h
  · exact Or.inr ⟨e, m, p, List.mem_reverse.mp he, h2, h3, h4, h5, h6⟩

/-- Witness for C1 at a concrete input: budget `1`, empty entry list. -/
theorem prepareBranchEntries_respects_budget_witness :
    ((prepareBranchEntries (fun _ => 0) [] 1).totalTokens : Int) ≤ 1 ∨
      ∃ (entry : SessionEntry) (message : AgentMessage) (pre : Nat),
        entry ∈ ([] : List SessionEntry) ∧ isSummaryKind entry = true ∧
        getMessageFromEntry entry = some message ∧
        (10 * pre : Int) < 9 * 1 ∧
        ((pre + (fun (_ : AgentMessage) => 0) message : Nat) : Int) > 1 ∧
        (prepareBranchEntries (fun _ => 0) [] 1).totalTokens
          = pre + (fun (_ : AgentMessage) => 0) message :=
  prepareBranchEntries_respects_budget (fun _ => 0) [] 1 (by decide)

/-- C10: file operations of an assistant message are recorded before the
budget check, so the first over-budget message can contribute its `write`
path to the returned `fileOps` even though it is not admitted to `messages`:
with a budget of 10 and a single 100-token assistant message carrying a
`write` tool call on `"a.txt"`, the result admits no message yet reports
`"a.txt"` as written. -/
theorem prepareBranchEntries_fileOps_before_budget :
    prepareBranchEntries (fun _ => 100)
        [⟨"e1", none, 0, .message (.assistant [.toolCall "write" (some "a.txt")])⟩]
        10
      = ⟨[], ⟨[], ["a.txt"], []⟩, 0⟩ := by
  decide

theorem mem_setAdd {s : List String} {y x : String} :
    x ∈ setAdd s y ↔ x ∈ s ∨ x = y := by
  unfold setAdd
  by_cases h : y ∈ s
  · rw [if_pos h]
    constructor
    · exact Or.inl
    · rintro (hx | rfl)
      · exact hx
      · exact h
  · rw [if_neg h]
    simp

theorem nodup_setAdd {s : List String} {y : String} (h : s.Nodup) :
    (setAdd s y).Nodup := by
  unfold setAdd
  by_cases hy : y ∈ s
  · rwa [if_pos hy]
  · rw [if_neg hy]
    refine List.Nodup.append h (List.nodup_singleton y) ?_
    intro a ha hb
    rw [List.mem_singleton] at hb
    exact hy (hb ▸ ha)

theorem mem_foldl_setAdd (l : List String) (init : List String) (x : String) :
    x ∈ l.foldl setAdd init ↔ x ∈ init ∨ x ∈ l := by
  induction l generalizing init with
  | nil => simp
  | cons a t ih =>
    rw [List.foldl_cons, ih, mem_setAdd, List.mem_cons]
    tauto

theorem nodup_foldl_setAdd (l : List String) (init : List String) (h : init.Nodup) :
    (l.foldl setAdd init).Nodup := by
  induction l generalizing init with
  | nil => exact h
  | cons a t ih => exact ih _ (nodup_setAdd h)

theorem mem_setOfList {l : List String} {x : String} : x ∈ setOfList l ↔ x ∈ l := by
  unfold setOfList
  rw [mem_foldl_setAdd]
  simp

theorem nodup_setOfList (l : List String) : (setOfList l).Nodup :=
  nodup_foldl_setAdd l [] List.nodup_nil

theorem sortStrings_perm (l : List String) : List.Perm (sortStrings l) l :=
  List.perm_insertionSort _ l

theorem sortStrings_sorted (l : List String) : (sortStrings l).Sorted (· ≤ ·) :=
  List.sorted_insertionSort _ l

theorem mem_sortStrings {l : List String} {x : String} : x ∈ sortStrings l ↔ x ∈ l :=
  (sortStrings_perm l).mem_iff

theorem sortStrings_eq_of_perm {l₁ l₂ : List String} (h : List.Perm l₁ l₂) :
    sortStrings l₁ = sortStrings l₂ :=
  List.eq_of_perm_of_sorted
    ((sortStrings_perm l₁).trans (h.trans (sortStrings_perm l₂).symm))
    (sortStrings_sorted l₁) (sortStrings_sorted l₂)

theorem mem_modifiedFiles {ops : FileOperations} {x : String} :
    x ∈ modifiedFiles ops ↔ x ∈ ops.edited ∨ x ∈ ops.written := by
  unfold modifiedFiles
  rw [mem_setOfList, List.mem_append]

/-- C7: the file-operations report is a deterministic function of the
collected sets (it depends only on membership, not insertion order); a path
present in both the read set and the written-or-edited sets appears only in
the modified list and never in the read-only list; both lists are sorted and
duplicate-free. -/
theorem formatFileOperations_deterministic (ops1 ops2 : FileOperations)
    (hr1 : ops1.read.Nodup) (hw1 : ops1.written.Nodup) (he1 : ops1.edited.Nodup)
    (hr2 : ops2.read.Nodup) (hw2 : ops2.written.Nodup) (he2 : ops2.edited.Nodup)
    (hr12 : ∀ x ∈ ops1.read, x ∈ ops2.read) (hr21 : ∀ x ∈ ops2.read, x ∈ ops1.read)
    (hw12 : ∀ x ∈ ops1.written, x ∈ ops2.written) (hw21 : ∀ x ∈ ops2.written, x ∈ ops1.written)
    (he12 : ∀ x ∈ ops1.edited, x ∈ ops2.edited) (he21 : ∀ x ∈ ops2.edited, x ∈ ops1.edited) :
    formatFileOperations ops1 = formatFileOperations ops2
    ∧ (∀ p, p ∈ ops1.read → (p ∈ ops1.written ∨ p ∈ ops1.edited) →
        p ∉ readOnlyFiles ops1 ∧ p ∈ sortStrings (modifiedFiles ops1))
    ∧ (readOnlyFiles ops1).Sorted (· ≤ ·) ∧ (readOnlyFiles ops1).Nodup
    ∧ (sortStrings (modifiedFiles ops1)).Sorted (· ≤ ·)
    ∧ (sortStrings (modifiedFiles ops1)).Nodup := by
  have hmodMem : ∀ x, x ∈ modifiedFiles ops1 ↔ x ∈ modifiedFiles ops2 := by
    intro x
    rw [mem_modifiedFiles, mem_modifiedFiles]
    constructor
    · rintro (h | h)
      · exact Or.inl (he12 x h)
      · exact Or.inr (hw12 x h)
    · rintro (h | h)
      · exact Or.inl (he21 x h)
      · exact Or.inr (hw21 x h)
  have hmodPerm : List.Perm (modifiedFiles ops1) (modifiedFiles ops2) :=
    (List.perm_ext_iff_of_nodup (nodup_setOfList _) (nodup_setOfList _)).mpr hmodMem
  have hsortMod : sortStrings (modifiedFiles ops1) = sortStrings (modifiedFiles ops2) :=
    sortStrings_eq_of_perm hmodPerm
  have hfilterPerm :
      List.Perm (ops1.read.filter (fun f => !decide (f ∈ modifiedFiles ops1)))
        (ops2.read.filter (fun f => !decide (f ∈ modifiedFiles ops2))) := by
    refine (List.perm_ext_iff_of_nodup (hr1.filter _) (hr2.filter _)).mpr ?_
    intro x
    rw [List.mem_filter, List.mem_filter]
    constructor
    · rintro ⟨hx, hd⟩
      refine ⟨hr12 x hx, ?_⟩
      simpa [hmodMem x] using hd
    · rintro ⟨hx, hd⟩
      refine ⟨hr21 x hx, ?_⟩
      simpa [← hmodMem x] using hd
  have hreadOnly : readOnlyFiles ops1 = readOnlyFiles ops2 :=
    sortStrings_eq_of_perm hfilterPerm
  have hmodLen : (modifiedFiles ops1).length = (modifiedFiles ops2).length :=
    hmodPerm.length_eq
  refine ⟨?_, ?_, sortStrings_sorted _, (sortStrings_perm _).nodup_iff.mpr (hr1.filter _),
    sortStrings_sorted _, (sortStrings_perm _).nodup_iff.mpr (nodup_setOfList _)⟩
  · simp only [formatFileOperations, hreadOnly, hsortMod, hmodLen]
  · intro p hp hmod
    have hpm : p ∈ modifiedFiles ops1 := by
      rw [mem_modifiedFiles]
      exact hmod.symm
    constructor
    · intro hc
      rw [readOnlyFiles, mem_sortStrings, List.mem_filter] at hc
      simp [hpm] at hc
    · rw [mem_sortStrings]
      exact hpm

/-- Witness for C7: two `FileOperations` records whose sets have the same
members in different insertion orders produce the same report text. -/
theorem formatFileOperations_deterministic_witness :
    formatFileOperations ⟨["b", "a"], ["a"], []⟩ = formatFileOperations ⟨["a", "b"], ["a"], []⟩ :=
  (formatFileOperations_deterministic ⟨["b", "a"], ["a"], []⟩ ⟨["a", "b"], ["a"], []⟩
    (by decide) (by decide) (by decide) (by decide) (by decide) (by decide)
    (by decide) (by decide) (by decide) (by decide) (by decide) (by decide)).1

/-- C8: if preparation under the computed budget (context window, 128000
fallback, minus reserve) admits no message, `generateBranchSummary` returns
the fixed "no content" summary and never invokes the completion function. -/
theorem generateBranchSummary_empty_skips_completion
    (complete : String → CompleteResponse) (estimate : AgentMessage → Nat)
    (entries : List SessionEntry) (options : GenerateBranchSummaryOptions)
    (h : (prepareBranchEntries estimate entries (computedTokenBudget options)).messages = []) :
    (generateBranchSummary complete estimate entries options).result
        = { summary := some "No content to summarize" }
    ∧ (generateBranchSummary complete estimate entries options).completionCalls = [] := by
  unfold generateBranchSummary
  simp only [h, List.length_nil]
  exact ⟨rfl, rfl⟩

/-- Witness for C8 at a concrete input: an empty entry list. -/
theorem generateBranchSummary_empty_skips_completion_witness :
    (generateBranchSummary (fun _ => ⟨"stop", [], none⟩) (fun _ => 1) [] ⟨⟨none⟩, none, none⟩).result
        = { summary := some "No content to summarize" }
    ∧ (generateBranchSummary (fun _ => ⟨"stop", [], none⟩) (fun _ => 1) [] ⟨⟨none⟩, none, none⟩).completionCalls
        = [] :=
  generateBranchSummary_empty_skips_completion (fun _ => ⟨"stop", [], none⟩) (fun _ => 1) []
    ⟨⟨none⟩, none, none⟩ (by decide)

theorem emitErrorLog_filter_not_mem (t : List String) (name : String) (e : HookError)
    (h : name ∉ t) :
    (emitErrorLog t e).filter (fun d => d.1 == name) = [] := by
  induction t with
  | nil => rfl
  | cons a s ih =>
    have ha : ((a, e).1 == name) = false := by
      simp only [beq_eq_false_iff_ne]
      intro heq
      exact h (heq ▸ List.mem_cons_self a s)
    rw [emitErrorLog, List.map_cons, List.filter_cons_of_neg (by simpa using ha)]
    exact ih (fun hm => h (List.mem_cons_of_mem a hm))

theorem emitErrorLog_filter_eq (listeners : List String) (name : String) (e : HookError)
    (hnd : listeners.Nodup) (hmem : name ∈ listeners) :
    (emitErrorLog listeners e).filter (fun d => d.1 == name) = [(name, e)] := by
  induction listeners with
  | nil => cases hmem
  | cons a t ih =>
    obtain ⟨hat, hndt⟩ := List.nodup_cons.mp hnd
    by_cases hae : a = name
    · subst hae
      rw [emitErrorLog, List.map_cons, List.filter_cons_of_pos (by simp)]
      rw [show (t.map fun n => (n, e)) = emitErrorLog t e from rfl,
        emitErrorLog_filter_not_mem t a e hat]
    · have hnt : name ∈ t := (List.mem_cons.mp hmem).resolve_left (fun h => hae h.symm)
      rw [emitErrorLog, List.map_cons, List.filter_cons_of_neg (by simpa using hae)]
      exact ih hndt hnt

theorem emitErrorLog_delivery (listeners : List String) (hnd : listeners.Nodup)
    (name : String) (hmem : name ∈ listeners) (errors : List HookError) :
    ((errors.flatMap (emitErrorLog listeners)).filter (fun d => d.1 == name)).map
        (fun d => d.2)
      = errors := by
  induction errors with
  | nil => rfl
  | cons e t ih =>
    rw [List.flatMap_cons, List.filter_append, List.map_append, ih,
      emitErrorLog_filter_eq listeners name e hnd hmem]
    rfl

/-- Loop invariant behind C3: when no timerless handler hangs, the loop
returns (never hangs), reports exactly one error per failing invocation in
dispatch order, and only a cancelling session result can cut dispatch
short. -/
theorem emitGo_isolates (ms : Nat) (event : HookEvent)
    (pending : List (String × HandlerBehavior (Option EventResult)))
    (hNoHang : ∀ x ∈ pending, invokeOutcome ms event x.2 ≠ none) :
    (emitGo ms event pending).hung = false
    ∧ (emitGo ms event pending).errors
        = (emitGo ms event pending).invoked.filterMap (invocationError ms event)
    ∧ ∃ post, pending = (emitGo ms event pending).invoked ++ post
        ∧ (post = [] ∨ ∃ l x res, (emitGo ms event pending).invoked = l ++ [x]
            ∧ invokeOutcome ms event x.2 = some (.ok (some res)) ∧ res.cancel = true
            ∧ event.type = "session") := by
  induction pending with
  | nil => exact ⟨rfl, rfl, [], rfl, Or.inl rfl⟩
  | cons x rest ih =>
    have hx : invokeOutcome ms event x.2 ≠ none := hNoHang x (List.mem_cons_self x rest)
    obtain ⟨h1, h2, post, hp, hdisj⟩ := ih (fun y hy => hNoHang y (List.mem_cons_of_mem x hy))
    cases houtcome : invokeOutcome ms event x.2 with
    | none => exact absurd houtcome hx
    | some res0 =>
      cases res0 with
      | err m =>
        have hinv : invocationError ms event x = some ⟨x.1, event.type, m⟩ := by
          simp [invocationError, houtcome]
        simp only [emitGo, houtcome]
        refine ⟨h1, ?_, post, ?_, ?_⟩
        · rw [List.filterMap_cons, hinv, h2]
        · rw [List.cons_append]
          exact congrArg (List.cons x) hp
        · rcases hdisj with hpost | ⟨l, y, res, hl, hy, hc, hs⟩
          · exact Or.inl hpost
          · exact Or.inr ⟨x :: l, y, res, by rw [hl]; rfl, hy, hc, hs⟩
      | ok v =>
        have hinv : invocationError ms event x = none := by
          simp [invocationError, houtcome]
        have hcont : (emitGo ms event rest).hung = false
            ∧ (emitGo ms event rest).errors
                = (x :: (emitGo ms event rest).invoked).filterMap (invocationError ms event)
            ∧ ∃ post'', x :: rest = (x :: (emitGo ms event rest).invoked) ++ post''
                ∧ (post'' = [] ∨ ∃ l y res, x :: (emitGo ms event rest).invoked = l ++ [y]
                    ∧ invokeOutcome ms event y.2 = some (.ok (some res)) ∧ res.cancel = true
                    ∧ event.type = "session") := by
          refine ⟨h1, ?_, post, ?_, ?_⟩
          · rw [List.filterMap_cons, hinv, h2]
          · rw [List.cons_append]
            exact congrArg (List.cons x) hp
          · rcases hdisj with hpost | ⟨l, y, res, hl, hy, hc, hs⟩
            · exact Or.inl hpost
            · exact Or.inr ⟨x :: l, y, res, by rw [hl]; rfl, hy, hc, hs⟩
        simp only [emitGo, houtcome]
        by_cases hs : event.type = "session"
        · simp only [if_pos hs]
          cases v with
          | none => exact hcont
          | some res =>
            dsimp only
            cases hcb : res.cancel with
            | true =>
              refine ⟨rfl, ?_, rest, rfl, Or.inr ⟨[], x, res, rfl, houtcome, hcb, hs⟩⟩
              show ([] : List HookError) = List.filterMap (invocationError ms event) [x]
              rw [List.filterMap_cons, hinv]
              rfl
            | false =>
              simp only [hcb, if_neg (show ¬(false = true) by decide)]
              exact hcont
        · simp only [if_neg hs]
          by_cases ht : event.type = "tool_result"
          · simp only [if_pos ht]
            cases v with
            | none => exact hcont
            | some res => exact hcont
          · simp only [if_neg ht]
            exact hcont

/-- C3: for every `emit` invocation in which no timerless (before-compact)
handler hangs, every handler failure (throw, or timeout firing) is caught
inside `emit` (the run terminates and is never propagated), exactly one
`HookError` per failing invocation is produced in order and delivered to
every registered error listener, and dispatch continues past failures: the
invocation log is only ever cut short by a cancelling session result. -/
theorem emit_isolates_failures (hooks : List LoadedHook) (ms : Nat) (event : HookEvent)
    (hNoHang : ∀ x ∈ dispatchList hooks event.type, invokeOutcome ms event x.2 ≠ none) :
    (emit hooks ms event).hung = false
    ∧ (emit hooks ms event).errors
        = (emit hooks ms event).invoked.filterMap (invocationError ms event)
    ∧ (∃ post, dispatchList hooks event.type = (emit hooks ms event).invoked ++ post
        ∧ (post = [] ∨ ∃ l x res, (emit hooks ms event).invoked = l ++ [x]
            ∧ invokeOutcome ms event x.2 = some (.ok (some res)) ∧ res.cancel = true
            ∧ event.type = "session"))
    ∧ ∀ listeners : List String, listeners.Nodup → ∀ name ∈ listeners,
        (((emit hooks ms event).errors.flatMap (emitErrorLog listeners)).filter
            (fun d => d.1 == name)).map (fun d => d.2)
          = (emit hooks ms event).errors := by
  obtain ⟨h1, h2, h3⟩ := emitGo_isolates ms event (dispatchList hooks event.type) hNoHang
  exact ⟨h1, h2, h3, fun listeners hnd name hmem =>
    emitErrorLog_delivery listeners hnd name hmem _⟩

/-- Witness for C3: one hook with a throwing handler followed by a second
handler, on a non-session event; both handlers run, one error is recorded. -/
theorem emit_isolates_failures_witness :
    (emit [⟨"h1", [("tool_result", [.rejects "boom", .resolves none])]⟩] 30000
        ⟨"tool_result", none⟩).hung = false
    ∧ (emit [⟨"h1", [("tool_result", [.rejects "boom", .resolves none])]⟩] 30000
        ⟨"tool_result", none⟩).errors
        = (emit [⟨"h1", [("tool_result", [.rejects "boom", .resolves none])]⟩] 30000
            ⟨"tool_result", none⟩).invoked.filterMap
              (invocationError 30000 ⟨"tool_result", none⟩)
    ∧ (∃ post, dispatchList [⟨"h1", [("tool_result", [.rejects "boom", .resolves none])]⟩]
            (HookEvent.mk "tool_result" none).type
          = (emit [⟨"h1", [("tool_result", [.rejects "boom", .resolves none])]⟩] 30000
              ⟨"tool_result", none⟩).invoked ++ post
        ∧ (post = [] ∨ ∃ l x res,
            (emit [⟨"h1", [("tool_result", [.rejects "boom", .resolves none])]⟩] 30000
                ⟨"tool_result", none⟩).invoked = l ++ [x]
            ∧ invokeOutcome 30000 ⟨"tool_result", none⟩ x.2 = some (.ok (some res))
            ∧ res.cancel = true ∧ (HookEvent.mk "tool_result" none).type = "session"))
    ∧ ∀ listeners : List String, listeners.Nodup → ∀ name ∈ listeners,
        (((emit [⟨"h1", [("tool_result", [.rejects "boom", .resolves none])]⟩] 30000
              ⟨"tool_result", none⟩).errors.flatMap (emitErrorLog listeners)).filter
            (fun d => d.1 == name)).map (fun d => d.2)
          = (emit [⟨"h1", [("tool_result", [.rejects "boom", .resolves none])]⟩] 30000
              ⟨"tool_result", none⟩).errors :=
  emit_isolates_failures [⟨"h1", [("tool_result", [.rejects "boom", .resolves none])]⟩]
    30000 ⟨"tool_result", none⟩ (by decide)

/-- Loop invariant behind C4: with a cancelling invocation at position
`pre.length` of the dispatch list and no earlier hang or cancel, the loop
invokes exactly `pre ++ [x]` and returns the cancelling result. -/
theorem emitGo_cancel_stops (ms : Nat) (event : HookEvent) (hs : event.type = "session")
    (pre : List (String × HandlerBehavior (Option EventResult)))
    (x : String × HandlerBehavior (Option EventResult))
    (post : List (String × HandlerBehavior (Option EventResult))) (res : EventResult)
    (hx : invokeOutcome ms event x.2 = some (.ok (some res)))
    (hc : res.cancel = true)
    (hpre : ∀ y ∈ pre, invokeOutcome ms event y.2 ≠ none
      ∧ ∀ r', invokeOutcome ms event y.2 = some (.ok (some r')) → r'.cancel = false) :
    (emitGo ms event (pre ++ x :: post)).invoked = pre ++ [x]
    ∧ (emitGo ms event (pre ++ x :: post)).result = some res
    ∧ (emitGo ms event (pre ++ x :: post)).hung = false := by
  induction pre with
  | nil =>
    refine ⟨?_, ?_, ?_⟩ <;>
      simp only [List.nil_append, emitGo, hx, if_pos hs, hc, if_true]
  | cons y pre' ih =>
    obtain ⟨hyh, hyc⟩ := hpre y (List.mem_cons_self y pre')
    obtain ⟨ih1, ih2, ih3⟩ := ih (fun z hz => hpre z (List.mem_cons_of_mem y hz))
    rw [List.cons_append]
    cases houtcome : invokeOutcome ms event y.2 with
    | none => exact absurd houtcome hyh
    | some res0 =>
      cases res0 with
      | err m =>
        simp only [emitGo, houtcome]
        exact ⟨by rw [ih1]; rfl, ih2, ih3⟩
      | ok v =>
        simp only [emitGo, houtcome, if_pos hs]
        cases v with
        | none => exact ⟨by rw [ih1]; rfl, ih2, ih3⟩
        | some r' =>
          dsimp only
          have hr' : r'.cancel = false := hyc r' houtcome
          simp only [hr', if_neg (show ¬(false = true) by decide)]
          refine ⟨by rw [ih1]; rfl, ?_, ih3⟩
          rw [ih2]
          rfl

/-- C4: on a session event, if the dispatch list decomposes as
`pre ++ x :: post` where `x`'s invocation returns a result with `cancel`
set and nothing in `pre` hangs or cancels, then `emit` returns that result
and invokes exactly `pre ++ [x]`: no handler after the cancelling one (later
handlers of the same hook or handlers of later hooks) is ever invoked. -/
theorem emit_cancel_shortcircuits (hooks : List LoadedHook) (ms : Nat) (event : HookEvent)
    (pre : List (String × HandlerBehavior (Option EventResult)))
    (x : String × HandlerBehavior (Option EventResult))
    (post : List (String × HandlerBehavior (Option EventResult))) (res : EventResult)
    (hs : event.type = "session")
    (hd : dispatchList hooks event.type = pre ++ x :: post)
    (hx : invokeOutcome ms event x.2 = some (.ok (some res)))
    (hc : res.cancel = true)
    (hpre : ∀ y ∈ pre, invokeOutcome ms event y.2 ≠ none
      ∧ ∀ r', invokeOutcome ms event y.2 = some (.ok (some r')) → r'.cancel = false) :
    (emit hooks ms event).invoked = pre ++ [x]
    ∧ (emit hooks ms event).result = some res := by
  obtain ⟨h1, h2, _⟩ := emitGo_cancel_stops ms event hs pre x post res hx hc hpre
  unfold emit
  rw [hd]
  exact ⟨h1, h2⟩

/-- Witness for C4: two hooks; the first cancels, the second is never
invoked. -/
theorem emit_cancel_shortcircuits_witness :
    (emit [⟨"h1", [("session", [.resolves (some ⟨true⟩)])]⟩,
        ⟨"h2", [("session", [.resolves (some ⟨false⟩)])]⟩] 30000 ⟨"session", none⟩).invoked
      = [] ++ [("h1", .resolves (some ⟨true⟩))]
    ∧ (emit [⟨"h1", [("session", [.resolves (some ⟨true⟩)])]⟩,
        ⟨"h2", [("session", [.resolves (some ⟨false⟩)])]⟩] 30000 ⟨"session", none⟩).result
      = some ⟨true⟩ :=
  emit_cancel_shortcircuits
    [⟨"h1", [("session", [.resolves (some ⟨true⟩)])]⟩,
      ⟨"h2", [("session", [.resolves (some ⟨false⟩)])]⟩]
    30000 ⟨"session", none⟩
    [] ("h1", .resolves (some ⟨true⟩)) [("h2", .resolves (some ⟨false⟩))] ⟨true⟩
    (by decide) (by decide) (by decide) (by decide)
    (fun y hy => absurd hy (List.not_mem_nil y))

theorem getLast?_cons_or {α : Type} (a : α) (l : List α) :
    (a :: l).getLast? = Option.or l.getLast? (some a) := by
  induction l generalizing a with
  | nil => rfl
  | cons b t ih =>
    rw [List.getLast?_cons_cons, ih b]
    obtain ⟨z, hz⟩ : ∃ z, Option.or t.getLast? (some b) = some z := by
      cases t.getLast? <;> exact ⟨_, rfl⟩
    rw [hz]
    rfl

/-- Loop invariant behind C5: the first invocation receives `current`; each
later invocation receives the previous invocation's replacement (or its
input when it produced none); the result is the last replacement produced,
falling back to `current` when `modified` was already set, else absent. -/
theorem emitContextGo_spec {M : Type} (ms : Nat)
    (pending : List (String × (List M → HandlerBehavior (Option (List M)))))
    (current : List M) (modified : Bool) :
    (∀ inv, (emitContextGo ms pending current modified).invoked.head? = some inv →
        inv.input = current)
    ∧ (∀ (i : Nat) (a b : CtxInvocation M),
        (emitContextGo ms pending current modified).invoked[i]? = some a →
        (emitContextGo ms pending current modified).invoked[i + 1]? = some b →
        b.input = (replacementOf ms a.behavior).getD a.input)
    ∧ (emitContextGo ms pending current modified).result
        = Option.or
            ((emitContextGo ms pending current modified).invoked.filterMap
              (fun inv => replacementOf ms inv.behavior)).getLast?
            (if modified then some current else none) := by
  induction pending generalizing current modified with
  | nil =>
    refine ⟨?_, ?_, ?_⟩
    · intro inv h
      cases h
    · intro i a b ha hb
      cases ha
    · cases modified <;> rfl
  | cons hd rest ih =>
    obtain ⟨path, handler⟩ := hd
    cases hrt : (raceWithTimeout ms (handler current)).1 with
    | err m =>
      obtain ⟨ih1, ih2, ih3⟩ := ih current modified
      have hrepl : replacementOf ms (handler current) = none := by
        simp [replacementOf, hrt]
      simp only [emitContextGo, hrt]
      refine ⟨fun inv h => by cases h; rfl, ?_, ?_⟩
      · intro i a b ha hb
        cases i with
        | zero =>
          rw [List.getElem?_cons_zero] at ha
          cases ha
          rw [List.getElem?_cons_succ] at hb
          have hbh : (emitContextGo ms rest current modified).invoked.head? = some b := by
            rw [List.head?_eq_getElem?]
            exact hb
          rw [ih1 b hbh]
          simp [hrepl]
        | succ i =>
          rw [List.getElem?_cons_succ] at ha hb
          exact ih2 i a b ha hb
      · rw [List.filterMap_cons]
        simp only [hrepl]
        exact ih3
    | ok v =>
      cases v with
      | none =>
        obtain ⟨ih1, ih2, ih3⟩ := ih current modified
        have hrepl : replacementOf ms (handler current) = none := by
          simp [replacementOf, hrt]
        simp only [emitContextGo, hrt]
        refine ⟨fun inv h => by cases h; rfl, ?_, ?_⟩
        · intro i a b ha hb
          cases i with
          | zero =>
            rw [List.getElem?_cons_zero] at ha
            cases ha
            rw [List.getElem?_cons_succ] at hb
            have hbh : (emitContextGo ms rest current modified).invoked.head? = some b := by
              rw [List.head?_eq_getElem?]
              exact hb
            rw [ih1 b hbh]
            simp [hrepl]
          | succ i =>
            rw [List.getElem?_cons_succ] at ha hb
            exact ih2 i a b ha hb
        · rw [List.filterMap_cons]
          simp only [hrepl]
          exact ih3
      | some msgs =>
        obtain ⟨ih1, ih2, ih3⟩ := ih msgs true
        have hrepl : replacementOf ms (handler current) = some msgs := by
          simp [replacementOf, hrt]
        simp only [emitContextGo, hrt]
        refine ⟨fun inv h => by cases h; rfl, ?_, ?_⟩
        · intro i a b ha hb
          cases i with
          | zero =>
            rw [List.getElem?_cons_zero] at ha
            cases ha
            rw [List.getElem?_cons_succ] at hb
            have hbh : (emitContextGo ms rest msgs true).invoked.head? = some b := by
              rw [List.head?_eq_getElem?]
              exact hb
            rw [ih1 b hbh]
            simp [hrepl]
          | succ i =>
            rw [List.getElem?_cons_succ] at ha hb
            exact ih2 i a b ha hb
        · rw [List.filterMap_cons]
          simp only [hrepl]
          rw [getLast?_cons_or, ih3]
          cases hL : ((emitContextGo ms rest msgs true).invoked.filterMap
              (fun inv => replacementOf ms inv.behavior)).getLast? <;>
            cases modified <;> rfl

/-- C5: in `emitContext`, each context handler receives the message list
produced by the most recent handler that returned a replacement (or the
original input if none had yet), and the returned result is the last
replacement produced by any handler — absent exactly when no handler
produced one. -/
theorem emitContext_chains {M : Type} (hooks : List (ContextHook M)) (ms : Nat)
    (messages : List M) :
    (∀ inv, (emitContext hooks ms messages).invoked.head? = some inv →
        inv.input = messages)
    ∧ (∀ (i : Nat) (a b : CtxInvocation M),
        (emitContext hooks ms messages).invoked[i]? = some a →
        (emitContext hooks ms messages).invoked[i + 1]? = some b →
        b.input = (replacementOf ms a.behavior).getD a.input)
    ∧ (emitContext hooks ms messages).result
        = ((emitContext hooks ms messages).invoked.filterMap
            (fun inv => replacementOf ms inv.behavior)).getLast? := by
  obtain ⟨h1, h2, h3⟩ := emitContextGo_spec ms (ctxDispatch hooks) messages false
  refine ⟨h1, h2, ?_⟩
  show (emitContextGo ms (ctxDispatch hooks) messages false).result
    = ((emitContextGo ms (ctxDispatch hooks) messages false).invoked.filterMap
        (fun inv => replacementOf ms inv.behavior)).getLast?
  rw [h3]
  cases ((emitContextGo ms (ctxDispatch hooks) messages false).invoked.filterMap
      (fun inv => replacementOf ms inv.behavior)).getLast? <;> rfl

/-- Witness for C5: two handlers, the first returning a replacement and the
second returning a result without messages; the final result equals the
first handler's output, not absent. -/
theorem emitContext_chains_witness :
    (emitContext (M := Nat)
        [⟨"h1", [fun _ => .resolves (some [1, 2])]⟩, ⟨"h2", [fun _ => .resolves none]⟩]
        30000 [0]).result
      = some [1, 2] :=
  ((emitContext_chains (M := Nat)
      [⟨"h1", [fun _ => .resolves (some [1, 2])]⟩, ⟨"h2", [fun _ => .resolves none]⟩]
      30000 [0]).2.2).trans (by decide)

/-- Counterexample for C6 as stated: it is not the case that in every
outcome of the race the timer resource ends up released (cleared or fired);
when the handler rejects before the timer, `clear()` is skipped and the
timer is still scheduled. -/
theorem raceWithTimeout_release_counterexample :
    ¬ ∀ (ms : Nat) (b : HandlerBehavior (Option EventResult)),
        (raceWithTimeout ms b).2 = TimerState.cleared
        ∨ (raceWithTimeout ms b).2 = TimerState.fired := by
  intro h
  exact absurd (h 30000 (.rejects "boom")) (by decide)

/-- C6 (amended): the per-call timer races the handler; if the timer fires
first the handler's outcome is ignored and the invocation becomes an error
citing the timeout duration; the timer is cleared when the handler resolves
first, but when the handler rejects first `clearTimeout` is skipped and the
timer remains scheduled (it is released only when it later fires).  For
every event that is not a before-compact session event, `emit` invokes the
handler exactly through this race (and `emitContext` calls it directly). -/
theorem raceWithTimeout_amended (ms : Nat) :
    (∀ v : Option EventResult,
        raceWithTimeout ms (HandlerBehavior.resolves v) = (.ok v, .cleared))
    ∧ (∀ m : String,
        raceWithTimeout (α := Option EventResult) ms (.rejects m)
          = (.err m, .stillScheduled))
    ∧ raceWithTimeout (α := Option EventResult) ms .neverSettles
        = (.err (timeoutMessage ms), .fired)
    ∧ timeoutMessage ms = "Hook timed out after " ++ toString ms ++ "ms"
    ∧ (∀ (event : HookEvent) (b : HandlerBehavior (Option EventResult)),
        isBeforeCompact event = false →
        invokeOutcome ms event b = some (raceWithTimeout ms b).1) :=
  ⟨fun _ => rfl, fun _ => rfl, rfl, rfl,
    fun _ b h => by simp [invokeOutcome, h]⟩

/-- Witness for C6 (amended), at a concrete non-before-compact event. -/
theorem raceWithTimeout_amended_witness :
    invokeOutcome 30000 ⟨"tool_result", none⟩
        (HandlerBehavior.rejects (α := Option EventResult) "boom")
      = some (raceWithTimeout 30000
          (HandlerBehavior.rejects (α := Option EventResult) "boom")).1 :=
  (raceWithTimeout_amended 30000).2.2.2.2 ⟨"tool_result", none⟩ (.rejects "boom") (by decide)

theorem isChain_tail {e : SessionEntry} {l : List SessionEntry}
    (h : isChain (e :: l) = true) : isChain l = true := by
  cases l with
  | nil => rfl
  | cons f rest =>
    unfold isChain at h
    simp only [Bool.and_eq_true] at h
    exact h.2

theorem isChain_cons_cons {e f : SessionEntry} {rest : List SessionEntry}
    (h : isChain (e :: f :: rest) = true) :
    e.parentId = some f.id ∧ isChain (f :: rest) = true := by
  unfold isChain at h
  simp only [Bool.and_eq_true] at h
  exact ⟨by simpa using h.1, h.2⟩

theorem isChain_singleton {e : SessionEntry} (h : isChain [e] = true) :
    e.parentId = none := by
  simpa [isChain] using h

theorem isChain_append_right (a b : List SessionEntry)
    (h : isChain (a ++ b) = true) : isChain b = true := by
  induction a with
  | nil => exact h
  | cons x t ih => exact ih (isChain_tail h)

/-- In an id-injective universe `S`, the parent chain hanging off an entry
is unique: two chains starting at the same entry coincide. -/
theorem chain_from_entry_unique (S : List SessionEntry)
    (hinj : ∀ a ∈ S, ∀ b ∈ S, a.id = b.id → a = b) :
    ∀ (b1 : List SessionEntry) (e : SessionEntry) (b2 : List SessionEntry),
      isChain (e :: b1) = true → isChain (e :: b2) = true →
      (∀ x ∈ e :: b1, x ∈ S) → (∀ x ∈ e :: b2, x ∈ S) →
      b1 = b2 := by
  intro b1
  induction b1 with
  | nil =>
    intro e b2 h1 h2 _ _
    cases b2 with
    | nil => rfl
    | cons f2 r2 =>
      have hnone := isChain_singleton h1
      have hsome := (isChain_cons_cons h2).1
      rw [hnone] at hsome
      cases hsome
  | cons f1 r1 ih =>
    intro e b2 h1 h2 hs1 hs2
    cases b2 with
    | nil =>
      have hnone := isChain_singleton h2
      have hsome := (isChain_cons_cons h1).1
      rw [hnone] at hsome
      cases hsome
    | cons f2 r2 =>
      obtain ⟨hp1, hc1⟩ := isChain_cons_cons h1
      obtain ⟨hp2, hc2⟩ := isChain_cons_cons h2
      have hid : f1.id = f2.id := Option.some.inj (hp1.symm.trans hp2)
      have hf : f1 = f2 :=
        hinj f1 (hs1 f1 (List.mem_cons_of_mem e (List.mem_cons_self f1 r1)))
          f2 (hs2 f2 (List.mem_cons_of_mem e (List.mem_cons_self f2 r2))) hid
      subst hf
      have hr : r1 = r2 :=
        ih f1 r2 hc1 hc2
          (fun x hx => hs1 x (List.mem_cons_of_mem e hx))
          (fun x hx => hs2 x (List.mem_cons_of_mem e hx))
      rw [hr]

/-- A duplicate-free list decomposes at an element in exactly one way. -/
theorem nodup_eq_append_cons {α : Type} (a : α) :
    ∀ (s1 t1 s2 t2 : List α), (s1 ++ a :: t1).Nodup → s1 ++ a :: t1 = s2 ++ a :: t2 →
      s1 = s2 ∧ t1 = t2 := by
  intro s1
  induction s1 with
  | nil =>
    intro t1 s2 t2 hnd h
    cases s2 with
    | nil =>
      simp only [List.nil_append] at h
      injection h with _ ht
      exact ⟨rfl, ht⟩
    | cons b s2' =>
      simp only [List.nil_append, List.cons_append] at h
      injection h with hb ht
      exfalso
      have hna : a ∉ t1 := (List.nodup_cons.mp (by simpa using hnd)).1
      rw [ht] at hna
      exact hna (List.mem_append_right s2' (List.mem_cons_self a t2))
  | cons b s1' ih =>
    intro t1 s2 t2 hnd h
    cases s2 with
    | nil =>
      simp only [List.cons_append, List.nil_append] at h
      injection h with hb ht
      exfalso
      have hnb : b ∉ s1' ++ a :: t1 := (List.nodup_cons.mp (by simpa using hnd)).1
      subst hb
      exact hnb (List.mem_append_right s1' (List.mem_cons_self b t1))
    | cons c s2' =>
      simp only [List.cons_append] at h
      injection h with hb ht
      obtain ⟨hs, hts⟩ := ih t1 s2' t2 (List.nodup_cons.mp (by simpa using hnd)).2 ht
      exact ⟨by rw [hb, hs], hts⟩

/-- With enough fuel, on a parent chain consistent with `getEntry`, the
collection loop walks exactly the prefix of the chain before the common
ancestor (or the whole chain when the ancestor id never occurs). -/
theorem collectLoop_eq_takeWhile (session : ReadonlySessionManager) (anc : Option String) :
    ∀ (p : List SessionEntry) (fuel : Nat),
      isChain p = true →
      (∀ e ∈ p, session.getEntry e.id = some e) →
      p.length ≤ fuel →
      collectLoop session anc fuel (p.head?.map (fun e => e.id))
        = p.takeWhile (fun e => !(anc == some e.id)) := by
  intro p
  induction p with
  | nil =>
    intro fuel _ _ _
    cases fuel <;> rfl
  | cons e rest ih =>
    intro fuel hc hcons hfuel
    cases fuel with
    | zero => exact absurd hfuel (by simp)
    | succ f =>
      show collectLoop session anc (f + 1) (some e.id)
        = (e :: rest).takeWhile (fun e => !(anc == some e.id))
      rw [List.takeWhile_cons]
      by_cases hanc : anc = some e.id
      · have hcond : (!(anc == some e.id)) = false := by
          simp [hanc]
        simp only [collectLoop, if_pos hanc, hcond]
        rfl
      · have hget : session.getEntry e.id = some e := hcons e (List.mem_cons_self e rest)
        have hcond : (!(anc == some e.id)) = true := by
          simp [hanc]
        simp only [collectLoop, if_neg hanc, hget, hcond, if_true]
        cases rest with
        | nil =>
          have hnone := isChain_singleton hc
          rw [hnone]
          cases f <;> rfl
        | cons f1 rest' =>
          obtain ⟨hp, hc'⟩ := isChain_cons_cons hc
          rw [hp]
          have hrec := ih f hc'
            (fun x hx => hcons x (List.mem_cons_of_mem e hx))
            (Nat.le_of_succ_le_succ (by simpa using hfuel))
          simpa using hrec

/-- C9: under tree-consistency hypotheses (the old position's root path is a
parent chain, `getEntry` resolves each of its entries, the path starts at
`oldLeafId`, and the fuel covers the path), the collected `entries` are
exactly the entries of the path from `oldLeafId` down to — but strictly
excluding — the common ancestor (the whole path when the ancestor never
occurs), reversed into chronological order; in particular no collected
entry's id equals `commonAncestorId`. -/
theorem collect_entries_exclude_ancestor (session : ReadonlySessionManager)
    (oldLeafId targetId : String) (fuel : Nat)
    (hc : isChain (session.getPath oldLeafId) = true)
    (hcons : ∀ e ∈ session.getPath oldLeafId, session.getEntry e.id = some e)
    (hfuel : (session.getPath oldLeafId).length ≤ fuel)
    (hhead : (session.getPath oldLeafId).head?.map (fun e => e.id) = some oldLeafId) :
    (collectEntriesForBranchSummary session (some oldLeafId) targetId fuel).entries
      = ((session.getPath oldLeafId).takeWhile (fun e =>
          !((collectEntriesForBranchSummary session (some oldLeafId) targetId
              fuel).commonAncestorId == some e.id))).reverse
    ∧ ∀ e ∈ (collectEntriesForBranchSummary session (some oldLeafId) targetId fuel).entries,
        some e.id
          ≠ (collectEntriesForBranchSummary session (some oldLeafId) targetId
              fuel).commonAncestorId := by
  have hcoll : collectEntriesForBranchSummary session (some oldLeafId) targetId fuel
      = ⟨(collectLoop session
            (((session.getPath targetId).find? (fun e =>
                decide (e.id ∈ (session.getPath oldLeafId).map (fun e => e.id)))).map
              (fun e => e.id))
            fuel (some oldLeafId)).reverse,
          ((session.getPath targetId).find? (fun e =>
              decide (e.id ∈ (session.getPath oldLeafId).map (fun e => e.id)))).map
            (fun e => e.id)⟩ := rfl
  rw [hcoll]
  set anc := ((session.getPath targetId).find? (fun e =>
      decide (e.id ∈ (session.getPath oldLeafId).map (fun e => e.id)))).map
    (fun e => e.id) with hancdef
  have hloop : collectLoop session anc fuel (some oldLeafId)
      = (session.getPath oldLeafId).takeWhile (fun e => !(anc == some e.id)) := by
    have h := collectLoop_eq_takeWhile session anc (session.getPath oldLeafId) fuel
      hc hcons hfuel
    rwa [hhead] at h
  constructor
  · show (collectLoop session anc fuel (some oldLeafId)).reverse = _
    rw [hloop]
  · intro e he
    show some e.id ≠ anc
    replace he : e ∈ (collectLoop session anc fuel (some oldLeafId)).reverse := he
    rw [hloop] at he
    have hp := List.mem_takeWhile_imp (List.mem_reverse.mp he)
    intro heq
    rw [← heq] at hp
    simp at hp

/-- C2: for well-formed non-empty ancestor paths sharing a root (parent
chains, globally injective ids, duplicate-free), the `commonAncestorId`
returned by `collectEntriesForBranchSummary` is the lowest common ancestor:
its id occurs on both paths, and no entry whose id occurs on both paths
lies strictly closer to either leaf (strictly before it on either path). -/
theorem collect_commonAncestorId_is_lca (session : ReadonlySessionManager)
    (oldLeafId targetId : String) (fuel : Nat)
    (hc1 : isChain (session.getPath oldLeafId) = true)
    (hc2 : isChain (session.getPath targetId) = true)
    (hinj : ∀ a ∈ session.getPath oldLeafId ++ session.getPath targetId,
        ∀ b ∈ session.getPath oldLeafId ++ session.getPath targetId, a.id = b.id → a = b)
    (hnd2 : ((session.getPath targetId).map (fun e => e.id)).Nodup)
    (hne1 : session.getPath oldLeafId ≠ [])
    (hne2 : session.getPath targetId ≠ [])
    (hroot : ((session.getPath oldLeafId).getLast?).map (fun e => e.id)
        = ((session.getPath targetId).getLast?).map (fun e => e.id)) :
    ∃ c : SessionEntry,
      (collectEntriesForBranchSummary session (some oldLeafId) targetId fuel).commonAncestorId
          = some c.id
      ∧ (∃ a2 b2, session.getPath targetId = a2 ++ c :: b2
          ∧ ∀ x ∈ a2, x.id ∉ (session.getPath oldLeafId).map (fun e => e.id))
      ∧ (∃ e1 a1 b1, e1.id = c.id ∧ session.getPath oldLeafId = a1 ++ e1 :: b1
          ∧ ∀ x ∈ a1, x.id ∉ (session.getPath targetId).map (fun e => e.id)) := by
  obtain ⟨r1, hr1⟩ : ∃ r1, (session.getPath oldLeafId).getLast? = some r1 := by
    cases h : (session.getPath oldLeafId).getLast? with
    | none => exact absurd (List.getLast?_eq_none_iff.mp h) hne1
    | some r => exact ⟨r, rfl⟩
  obtain ⟨r2, hr2⟩ : ∃ r2, (session.getPath targetId).getLast? = some r2 := by
    cases h : (session.getPath targetId).getLast? with
    | none => exact absurd (List.getLast?_eq_none_iff.mp h) hne2
    | some r => exact ⟨r, rfl⟩
  have hr12 : r1.id = r2.id := by
    rw [hr1, hr2] at hroot
    simpa using hroot
  have hr1mem : r1 ∈ session.getPath oldLeafId := List.mem_of_getLast?_eq_some hr1
  have hr2mem : r2 ∈ session.getPath targetId := List.mem_of_getLast?_eq_some hr2
  cases hfind : (session.getPath targetId).find? (fun e =>
      decide (e.id ∈ (session.getPath oldLeafId).map (fun e => e.id))) with
  | none =>
    exfalso
    apply List.find?_eq_none.mp hfind r2 hr2mem
    simp only [decide_eq_true_eq]
    exact List.mem_map.mpr ⟨r1, hr1mem, hr12⟩
  | some c =>
    obtain ⟨hpc, a2, b2, hdecomp, hfail⟩ := List.find?_eq_some.mp hfind
    have hanc : (collectEntriesForBranchSummary session (some oldLeafId) targetId
        fuel).commonAncestorId = some c.id := by
      show ((session.getPath targetId).find? (fun e =>
          decide (e.id ∈ (session.getPath oldLeafId).map (fun e => e.id)))).map
        (fun e => e.id) = some c.id
      rw [hfind]
      rfl
    have hcmem : c ∈ session.getPath targetId := List.mem_of_find?_eq_some hfind
    have hcid : c.id ∈ (session.getPath oldLeafId).map (fun e => e.id) := by
      simpa using hpc
    obtain ⟨e1, he1mem, he1id⟩ := List.mem_map.mp hcid
    obtain ⟨a1, b1, hdecomp1⟩ := List.append_of_mem he1mem
    refine ⟨c, hanc, ⟨a2, b2, hdecomp, fun x hx => by simpa using hfail x hx⟩,
      ⟨e1, a1, b1, he1id, hdecomp1, ?_⟩⟩
    intro x hx hxin
    obtain ⟨y, hymem, hyid⟩ := List.mem_map.mp hxin
    have hxp1 : x ∈ session.getPath oldLeafId := by
      rw [hdecomp1]
      exact List.mem_append_left _ hx
    have hyx : y = x :=
      hinj y (List.mem_append_right _ hymem) x (List.mem_append_left _ hxp1) hyid
    have hxp2 : x ∈ session.getPath targetId := hyx ▸ hymem
    obtain ⟨u2, v2, hdecu⟩ := List.append_of_mem hxp2
    obtain ⟨u, v, hdecua⟩ := List.append_of_mem hx
    have hp1x : session.getPath oldLeafId = u ++ x :: (v ++ e1 :: b1) := by
      rw [hdecomp1, hdecua]
      simp
    have hcx1 : isChain (x :: (v ++ e1 :: b1)) = true := by
      have h := hc1
      rw [hp1x] at h
      exact isChain_append_right u _ h
    have hcx2 : isChain (x :: v2) = true := by
      have h := hc2
      rw [hdecu] at h
      exact isChain_append_right u2 _ h
    have hsfx : v ++ e1 :: b1 = v2 :=
      chain_from_entry_unique
        (session.getPath oldLeafId ++ session.getPath targetId) hinj
        (v ++ e1 :: b1) x v2 hcx1 hcx2
        (fun z hz => List.mem_append_left _ (by rw [hp1x]; exact List.mem_append_right u hz))
        (fun z hz => List.mem_append_right _ (by rw [hdecu]; exact List.mem_append_right u2 hz))
    have hce : e1 = c :=
      hinj e1 (List.mem_append_left _ he1mem) c (List.mem_append_right _ hcmem) he1id
    have hcv2 : c ∈ v2 := by
      rw [← hsfx, ← hce]
      exact List.mem_append_right v (List.mem_cons_self e1 b1)
    obtain ⟨w1, w2, hw⟩ := List.append_of_mem hcv2
    have hp2c : session.getPath targetId = (u2 ++ x :: w1) ++ c :: w2 := by
      rw [hdecu, hw]
      simp
    have hnd2' : (session.getPath targetId).Nodup := hnd2.of_map
    obtain ⟨ha2eq, _⟩ := nodup_eq_append_cons c a2 b2 (u2 ++ x :: w1) w2
      (by rw [← hdecomp]; exact hnd2') (by rw [← hdecomp, ← hp2c])
    have hxa2 : x ∈ a2 := by
      rw [ha2eq]
      exact List.mem_append_right u2 (List.mem_cons_self x w1)
    have hxfail : x.id ∉ (session.getPath oldLeafId).map (fun e => e.id) := by
      simpa using hfail x hxa2
    exact hxfail (List.mem_map.mpr ⟨x, hxp1, rfl⟩)

/-- Witness for C2 on the concrete tree: navigating from `"b"` to `"t"`. -/
theorem collect_commonAncestorId_is_lca_witness :
    ∃ c : SessionEntry,
      (collectEntriesForBranchSummary demoSession (some "b") "t" 3).commonAncestorId
          = some c.id
      ∧ (∃ a2 b2, demoSession.getPath "t" = a2 ++ c :: b2
          ∧ ∀ x ∈ a2, x.id ∉ (demoSession.getPath "b").map (fun e => e.id))
      ∧ (∃ e1 a1 b1, e1.id = c.id ∧ demoSession.getPath "b" = a1 ++ e1 :: b1
          ∧ ∀ x ∈ a1, x.id ∉ (demoSession.getPath "t").map (fun e => e.id)) :=
  collect_commonAncestorId_is_lca demoSession "b" "t" 3 (by decide) (by decide)
    (by decide) (by decide) (by decide) (by decide) (by decide)

/-- Witness for C9 on the concrete tree: the collected entries are the
chronological strict prefix above the common ancestor, which never appears
among them. -/
theorem collect_entries_exclude_ancestor_witness :
    (collectEntriesForBranchSummary demoSession (some "b") "t" 3).entries
      = ((demoSession.getPath "b").takeWhile (fun e =>
          !((collectEntriesForBranchSummary demoSession (some "b") "t" 3).commonAncestorId
            == some e.id))).reverse
    ∧ ∀ e ∈ (collectEntriesForBranchSummary demoSession (some "b") "t" 3).entries,
        some e.id
          ≠ (collectEntriesForBranchSummary demoSession (some "b") "t" 3).commonAncestorId :=
  collect_entries_exclude_ancestor demoSession "b" "t" 3 (by decide) (by decide)
    (by decide) (by decide)

end PiMono
